import Mathlib

/-!
Verification of the rrule library (Go) against its natural-language
specification.  The Go sources under verification are `expansions.go` and
`parse.go`; the calendar helpers, the occurrence generator and the validation
routine live in files that are not part of the source snapshot and are
modelled from the specification where needed (each such definition carries a
doc comment starting with `Modelled from the spec:`).

Go strings are embedded as `List Char`; Go `time.Time` values are embedded as
civil date-times (`DateTime`) normalised exactly the way Go's `time.Date`
normalises out-of-range components (months and days may be arbitrary
integers and are folded into the date by calendar arithmetic).  Machine
integers are embedded as `Int`/`Nat` with explicit reductions modulo `2 ^ 64`
where the Go code converts between signed and unsigned values.
-/

namespace RRuleLib

/-! ## Calendar arithmetic

Days are counted from the epoch 1970-01-01 using the standard civil-date
conversion (Hinnant's algorithm), which is what Go's `time` package computes
via its own days-since-epoch representation. -/

/-- Number of days from 1970-01-01 to the civil date `(y, m, d)`,
for `1 ≤ m ≤ 12` (out-of-range months are normalised by the caller). -/
def daysFromCivil (y m d : Int) : Int :=
  let y2 := if m ≤ 2 then y - 1 else y
  let era := y2.ediv 400
  let yoe := y2 - era * 400
  let mp := if 2 < m then m - 3 else m + 9
  let doy := (153 * mp + 2).ediv 5 + d - 1
  let doe := yoe * 365 + yoe.ediv 4 - yoe.ediv 100 + doy
  era * 146097 + doe - 719468

/-- Civil date `(y, m, d)` of the day `z` days after 1970-01-01. -/
def civilFromDays (z : Int) : Int × Int × Int :=
  let z2 := z + 719468
  let era := z2.ediv 146097
  let doe := z2 - era * 146097
  let yoe := (doe - doe.ediv 1460 + doe.ediv 36524 - doe.ediv 146096).ediv 365
  let y := yoe + era * 400
  let doy := doe - (365 * yoe + yoe.ediv 4 - yoe.ediv 100)
  let mp := (5 * doy + 2).ediv 153
  let d := doy - (153 * mp + 2).ediv 5 + 1
  let m := if mp < 10 then mp + 3 else mp - 9
  (if m ≤ 2 then y + 1 else y, m, d)

/-- A Go `*time.Location`: either UTC (the `nil` default) or a named zone.
Zone offsets are irrelevant to the verified claims; the location is carried
around opaquely, exactly as the spec prescribes. -/
inductive GoLoc where
  | utc : GoLoc
  | named (tz : List Char) : GoLoc
deriving DecidableEq

/-- A Go `time.Time`: a normalised civil date-time plus a location.
Fields are only ever created through `goDate`, which normalises. -/
structure DateTime where
  year : Int
  month : Int
  day : Int
  hour : Int
  minute : Int
  second : Int
  nsec : Int
  loc : GoLoc
deriving DecidableEq

/-- Embedding of Go's `time.Date(y, mo, d, h, mi, s, ns, loc)`: all components
may lie outside their usual ranges and are normalised, with an out-of-range
day folded into the date by day arithmetic (so day `0` is the last day of the
previous month, day `-1` the day before that, and a too-large day rolls into
the following month). -/
def goDate (y mo d h mi s ns : Int) (loc : GoLoc) : DateTime :=
  let s2 := s + ns.ediv 1000000000
  let ns2 := ns.emod 1000000000
  let mi2 := mi + s2.ediv 60
  let s3 := s2.emod 60
  let h2 := h + mi2.ediv 60
  let mi3 := mi2.emod 60
  let dcarry := h2.ediv 24
  let h3 := h2.emod 24
  let y2 := y + (mo - 1).ediv 12
  let mo2 := (mo - 1).emod 12 + 1
  let z := daysFromCivil y2 mo2 1 + (d - 1) + dcarry
  let c := civilFromDays z
  ⟨c.1, c.2.1, c.2.2, h3, mi3, s3, ns2, loc⟩

/-- Days since epoch of (the date part of) a normalised `DateTime`. -/
def DateTime.dayNumber (t : DateTime) : Int :=
  daysFromCivil t.year t.month t.day

/-- The Go weekday number of a `DateTime`: `Sunday = 0` … `Saturday = 6`
(1970-01-01 was a Thursday). -/
def DateTime.weekdayNum (t : DateTime) : Int :=
  (t.dayNumber + 4).emod 7

/-- Total order key for instants: nanoseconds since the epoch.  Matches the
spec's tie-break rule that candidates compare as full instants
`(y, mo, d, h, mi, s, ns)`, since stored instants are normalised. -/
def DateTime.toNs (t : DateTime) : Int :=
  ((t.dayNumber * 24 + t.hour) * 3600 + t.minute * 60 + t.second) * 1000000000
    + t.nsec

/-- Go's `t.AddDate(0, 0, n)`: `time.Date` with `n` added to the day. -/
def DateTime.addDate (t : DateTime) (years months days : Int) : DateTime :=
  goDate (t.year + years) (t.month + months) (t.day + days)
    t.hour t.minute t.second t.nsec t.loc

/-! ## Core rule vocabulary -/

/-- Go `time.Weekday` (`Sunday = 0` … `Saturday = 6`). -/
inductive Weekday where
  | sunday | monday | tuesday | wednesday | thursday | friday | saturday
deriving DecidableEq

def Weekday.toInt : Weekday → Int
  | .sunday => 0
  | .monday => 1
  | .tuesday => 2
  | .wednesday => 3
  | .thursday => 4
  | .friday => 5
  | .saturday => 6

def Weekday.ofInt (n : Int) : Weekday :=
  match (n.emod 7).toNat with
  | 0 => .sunday
  | 1 => .monday
  | 2 => .tuesday
  | 3 => .wednesday
  | 4 => .thursday
  | 5 => .friday
  | _ => .saturday

/-- The weekday of a normalised `DateTime`, as Go's `t.Weekday()`. -/
def DateTime.weekday (t : DateTime) : Weekday :=
  Weekday.ofInt t.weekdayNum

/-- `InvalidBehavior`: the recovery policy for invalid generated dates. -/
inductive InvalidBehavior where
  | omitInvalid | prevInvalid | nextInvalid
deriving DecidableEq

/-- `QualifiedWeekday`: a weekday optionally qualified by a signed ordinal
(`N = 0` means every occurrence). -/
structure QualifiedWeekday where
  N : Int
  WD : Weekday
deriving DecidableEq

/-! ## Calendar kernel helpers (not in the source snapshot) -/

/-- Modelled from the spec: `forwardToWeekday(t, wd)` lives in a source file
that is not under the snapshot; the spec defines it as the smallest
non-negative day shift placing `t` on `wd`. -/
def forwardToWeekday (t : DateTime) (wd : Weekday) : DateTime :=
  t.addDate 0 0 ((wd.toInt - t.weekdayNum).emod 7)

/-- Modelled from the spec: `backToWeekday(t, wd)` lives in a source file that
is not under the snapshot; the spec defines it as the largest non-positive
day shift placing `t` on `wd`. -/
def backToWeekday (t : DateTime) (wd : Weekday) : DateTime :=
  t.addDate 0 0 (-((t.weekdayNum - wd.toInt).emod 7))

/-- Number of days in month `m` of year `y` (for `1 ≤ m ≤ 12`). -/
def daysInMonth (y m : Int) : Int :=
  (if m = 12 then daysFromCivil (y + 1) 1 1 else daysFromCivil y (m + 1) 1)
    - daysFromCivil y m 1

/-- All instants in `t`'s month falling on weekday `wd`, in ascending day
order, keeping `t`'s clock time. -/
def monthWeekdayOccurrences (t : DateTime) (wd : Weekday) : List DateTime :=
  (List.range (daysInMonth t.year t.month).toNat).filterMap fun i =>
    let u := goDate t.year t.month ((i : Int) + 1)
      t.hour t.minute t.second t.nsec t.loc
    if u.weekday = wd then some u else none

/-- All instants in `t`'s year falling on weekday `wd`, in ascending day
order, keeping `t`'s clock time. -/
def yearWeekdayOccurrences (t : DateTime) (wd : Weekday) : List DateTime :=
  let yearLen := daysFromCivil (t.year + 1) 1 1 - daysFromCivil t.year 1 1
  (List.range yearLen.toNat).filterMap fun i =>
    let u := goDate t.year 1 ((i : Int) + 1)
      t.hour t.minute t.second t.nsec t.loc
    if u.weekday = wd then some u else none

/-- Select from an occurrence list according to a signed ordinal: positive `n`
takes the `n`th from the start, negative `n` the `n`th from the end, and
`n = 0` keeps every occurrence (the spec's ordinal semantics). -/
def selectNth (l : List DateTime) (n : Int) : List DateTime :=
  if n = 0 then l
  else if 0 < n then (l.drop (n.toNat - 1)).take 1
  else (l.reverse.drop ((-n).toNat - 1)).take 1

/-- 1-based positional projection of a list, negative positions counting from
the end, preserving list order (the spec's `bySetPos` projection). -/
def setPosProject (positions : List Int) (l : List DateTime) : List DateTime :=
  (List.range l.length).filterMap fun i =>
    if positions.contains (Int.ofNat i + 1)
        ∨ positions.contains (Int.ofNat i - (l.length : Int)) then
      l.get? i
    else none

/-- Modelled from the spec: `weekdaysInMonth(t, qwds, setPos, invalidBehavior)`
lives in a source file that is not under the snapshot.  Per the spec it yields
every instant in `t`'s month matching any qualified weekday — positive `n`
selecting the `n`th occurrence from the month's start, negative `n` from its
end, `n = 0` all of them — and, when `setPos` is non-empty, the collected
instants are sorted and filtered to the positions in `setPos`.  The spec
assigns `invalidBehavior` no effect on this selection, so the parameter is
carried but unused. -/
def weekdaysInMonth (t : DateTime) (weekdays : List QualifiedWeekday)
    (bySetPos : List Int) (_ib : InvalidBehavior) : List DateTime :=
  let base := weekdays.flatMap fun q => selectNth (monthWeekdayOccurrences t q.WD) q.N
  if bySetPos = [] then base
  else
    setPosProject bySetPos
      (base.insertionSort fun a b => a.toNs ≤ b.toNs)

/-- Modelled from the spec: `weekdaysInYear(t, qwd, invalidBehavior)` lives in
a source file that is not under the snapshot; per the spec it is the analogue
of `weekdaysInMonth` for years, for one qualified weekday. -/
def weekdaysInYear (t : DateTime) (wd : QualifiedWeekday)
    (_ib : InvalidBehavior) : List DateTime :=
  selectNth (yearWeekdayOccurrences t wd.WD) wd.N

/-! ## The expansion functions (`expansions.go`) -/

def expandBySeconds (tt : List DateTime) (seconds : List Int) : List DateTime :=
  if seconds = [] then tt
  else tt.flatMap fun t => seconds.map fun s =>
    goDate t.year t.month t.day t.hour t.minute s t.nsec t.loc

def expandByMinutes (tt : List DateTime) (minutes : List Int) : List DateTime :=
  if minutes = [] then tt
  else tt.flatMap fun t => minutes.map fun m =>
    goDate t.year t.month t.day t.hour m t.second t.nsec t.loc

def expandByHours (tt : List DateTime) (hours : List Int) : List DateTime :=
  if hours = [] then tt
  else tt.flatMap fun t => hours.map fun h =>
    goDate t.year t.month t.day h t.minute t.second t.nsec t.loc

def expandByWeekdays (tt : List DateTime) (weekStart : Weekday)
    (weekdays : List QualifiedWeekday) : List DateTime :=
  if weekdays = [] then tt
  else tt.flatMap fun t =>
    weekdays.map fun wd => forwardToWeekday (backToWeekday t weekStart) wd.WD

def expandByMonthDays (tt : List DateTime) (monthdays : List Int) : List DateTime :=
  if monthdays = [] then tt
  else tt.flatMap fun t => monthdays.map fun md =>
    goDate t.year t.month md t.hour t.minute t.second t.nsec t.loc

def expandByYearDays (tt : List DateTime) (yeardays : List Int) : List DateTime :=
  if yeardays = [] then tt
  else tt.flatMap fun t =>
    let yearStart := goDate t.year 1 1 t.hour t.minute t.second t.nsec t.loc
    yeardays.map fun yd => yearStart.addDate 0 0 yd

def expandByWeekNumbers (tt : List DateTime) (weekStarts : Weekday)
    (weekNumbers : List Int) : List DateTime :=
  if weekNumbers = [] then tt
  else tt.flatMap fun t =>
    let yearStart := goDate t.year 1 1 t.hour t.minute t.second t.nsec t.loc
    let yearStart2 := forwardToWeekday yearStart t.weekday
    weekNumbers.map fun w => yearStart2.addDate 0 0 ((w - 1) * 7)

def expandByMonths (tt : List DateTime) (ib : InvalidBehavior)
    (months : List Int) : List DateTime :=
  if months = [] then tt
  else tt.flatMap fun t => months.filterMap fun m =>
    let set := goDate t.year m t.day t.hour t.minute t.second t.nsec t.loc
    if set.month ≠ m then
      match ib with
      | .prevInvalid =>
        some (goDate t.year (t.month + 1) (-1) t.hour t.minute t.second t.nsec t.loc)
      | .nextInvalid =>
        some (goDate t.year (t.month + 1) 1 t.hour t.minute t.second t.nsec t.loc)
      | .omitInvalid => none
    else some set

def expandMonthByWeekdays (tt : List DateTime) (ib : InvalidBehavior)
    (bySetPos : List Int) (weekdays : List QualifiedWeekday) : List DateTime :=
  if weekdays = [] then tt
  else tt.flatMap fun t => weekdaysInMonth t weekdays bySetPos ib

def expandYearByWeekdays (tt : List DateTime) (ib : InvalidBehavior)
    (weekdays : List QualifiedWeekday) : List DateTime :=
  if weekdays = [] then tt
  else tt.flatMap fun t => weekdays.flatMap fun wd => weekdaysInYear t wd ib

/-! ## Occurrence generator (spec-modelled)

The generator itself lives in a source file that is not under the snapshot;
the definitions below follow the spec's outer-loop description.  Instants are
compared through an integer key (`DateTime.toNs` for real instants); the
per-period candidate construction (outer-loop steps 1 and 3) is abstracted as
a list of candidate sets so that the same skeleton serves every frequency. -/

/-- Sort ascending by `key` and coalesce equal neighbours (the spec's
outer-loop step 2: sort ascending, deduplicate). -/
def sortDedup {α : Type} (key : α → Int) (l : List α) : List α :=
  (l.insertionSort fun a b => key a ≤ key b).destutter fun a b => key a < key b

/-- One outer-loop emission (spec steps 4–5): sort and deduplicate the
period's candidates, drop those before `dtstart` and those already yielded,
and yield the rest in order. -/
def periodEmit {α : Type} [DecidableEq α] (key : α → Int) (dtstartKey : Int)
    (emitted c : List α) : List α :=
  ((sortDedup key c).filter fun x => decide (dtstartKey ≤ key x)).filter
    fun x => decide (x ∉ emitted)

/-- Modelled from the spec: the generator's outer loop, period by period,
threading the set of already-yielded instants. -/
def emitPeriods {α : Type} [DecidableEq α] (key : α → Int) (dtstartKey : Int) :
    List (List α) → List α → List α
  | [], _ => []
  | c :: cs, emitted =>
    let e := periodEmit key dtstartKey emitted c
    e ++ emitPeriods key dtstartKey cs (emitted ++ e)

/-- Modelled from the spec: `rule.All` materialises the generated sequence,
a `count` of zero meaning unbounded.  `candidateSets` abstracts the spec's
per-period candidate construction and `bySetPos` projection. -/
def generateAll {α : Type} [DecidableEq α] (key : α → Int) (dtstartKey : Int)
    (count : Nat) (candidateSets : List (List α)) : List α :=
  match count with
  | 0 => emitPeriods key dtstartKey candidateSets []
  | n + 1 => (emitPeriods key dtstartKey candidateSets []).take (n + 1)

/-- Modelled from the spec: the candidate set of outer period `k` for a
`Monthly` rule with a `byWeekday` list — the period anchor is `dtstart`
advanced by `k` months (interval 1), and the candidates are the qualified
weekdays resolved inside the anchor's month (or the anchor alone when
`byWeekday` is empty). -/
def monthlyByWeekdayCandidates (dtstart : DateTime)
    (weekdays : List QualifiedWeekday) (bySetPos : List Int)
    (ib : InvalidBehavior) (k : Nat) : List DateTime :=
  let anchor := goDate dtstart.year (dtstart.month + Int.ofNat k) dtstart.day
    dtstart.hour dtstart.minute dtstart.second dtstart.nsec dtstart.loc
  if weekdays = [] then [anchor] else weekdaysInMonth anchor weekdays bySetPos ib

/-- Modelled from the spec: the full generated sequence of a `Monthly` rule
with a `byWeekday` list and a count, materialised over `periods` outer
iterations (the spec's safety cap bounds this fuel). -/
def generateMonthlyByWeekday (dtstart : DateTime)
    (weekdays : List QualifiedWeekday) (bySetPos : List Int)
    (ib : InvalidBehavior) (count : Nat) (periods : Nat) : List DateTime :=
  generateAll DateTime.toNs dtstart.toNs count
    ((List.range periods).map (monthlyByWeekdayCandidates dtstart weekdays bySetPos ib))

/-- Modelled from the spec: the candidate set of outer period `k` for a
`Yearly` rule with a `byWeekNumber` list — the period anchor is `dtstart`
advanced by `k` years (interval 1), expanded through the source's own
`expandByWeekNumbers`. -/
def yearlyByWeekNoCandidates (dtstart : DateTime) (ws : Weekday)
    (weekNumbers : List Int) (k : Nat) : List DateTime :=
  expandByWeekNumbers
    [goDate (dtstart.year + Int.ofNat k) dtstart.month dtstart.day
      dtstart.hour dtstart.minute dtstart.second dtstart.nsec dtstart.loc]
    ws weekNumbers

/-- Modelled from the spec: the full generated sequence of a `Yearly` rule
with a `byWeekNumber` list, materialised over `periods` outer iterations. -/
def generateYearlyByWeekNo (dtstart : DateTime) (ws : Weekday)
    (weekNumbers : List Int) (count : Nat) (periods : Nat) : List DateTime :=
  generateAll DateTime.toNs dtstart.toNs count
    ((List.range periods).map (yearlyByWeekNoCandidates dtstart ws weekNumbers))

/-! ## Generator ordering lemmas -/

theorem sortDedup_pairwise {α : Type} (key : α → Int) (l : List α) :
    (sortDedup key l).Pairwise fun a b => key a < key b := by
  haveI : IsTrans α fun a b => key a < key b := ⟨fun _ _ _ h₁ h₂ => lt_trans h₁ h₂⟩
  exact List.chain'_iff_pairwise.mp
    (List.destutter_is_chain' _ (l.insertionSort fun a b => key a ≤ key b))

theorem mem_sortDedup {α : Type} (key : α → Int) (l : List α) (x : α)
    (hx : x ∈ sortDedup key l) : x ∈ l := by
  have h₁ : x ∈ l.insertionSort fun a b => key a ≤ key b :=
    (List.destutter_sublist _ _).mem hx
  exact (List.perm_insertionSort _ l).mem_iff.mp h₁

theorem periodEmit_pairwise {α : Type} [DecidableEq α] (key : α → Int)
    (dk : Int) (em c : List α) :
    (periodEmit key dk em c).Pairwise fun a b => key a < key b :=
  ((sortDedup_pairwise key c).sublist (List.filter_sublist _)).sublist
    (List.filter_sublist _)

theorem mem_periodEmit {α : Type} [DecidableEq α] (key : α → Int)
    (dk : Int) (em c : List α) (x : α) (hx : x ∈ periodEmit key dk em c) :
    x ∈ c :=
  mem_sortDedup key c x
    (((List.filter_sublist _).trans (List.filter_sublist _)).mem hx)

theorem mem_emitPeriods {α : Type} [DecidableEq α] (key : α → Int) (dk : Int)
    (css : List (List α)) (em : List α) (y : α)
    (hy : y ∈ emitPeriods key dk css em) : ∃ c ∈ css, y ∈ c := by
  induction css generalizing em with
  | nil => simp [emitPeriods] at hy
  | cons c cs ih =>
    rw [emitPeriods] at hy
    rcases List.mem_append.mp hy with h | h
    · exact ⟨c, List.mem_cons_self c cs, mem_periodEmit key dk em c y h⟩
    · obtain ⟨d, hd, hyd⟩ := ih _ h
      exact ⟨d, List.mem_cons_of_mem c hd, hyd⟩

theorem emitPeriods_pairwise {α : Type} [DecidableEq α] (key : α → Int)
    (dk : Int) (css : List (List α)) (em : List α)
    (h : css.Pairwise fun c d => ∀ x ∈ c, ∀ y ∈ d, key x < key y) :
    (emitPeriods key dk css em).Pairwise fun a b => key a < key b := by
  induction css generalizing em with
  | nil => simp [emitPeriods]
  | cons c cs ih =>
    rw [List.pairwise_cons] at h
    rw [emitPeriods]
    refine List.pairwise_append.mpr ⟨periodEmit_pairwise key dk em c, ih _ h.2, ?_⟩
    intro x hx y hy
    obtain ⟨d, hd, hyd⟩ := mem_emitPeriods key dk cs _ y hy
    exact h.1 d hd x (mem_periodEmit key dk em c x hx) y hyd

theorem emitPeriods_append {α : Type} [DecidableEq α] (key : α → Int)
    (dk : Int) (cs₁ cs₂ : List (List α)) (em : List α) :
    emitPeriods key dk (cs₁ ++ cs₂) em =
      emitPeriods key dk cs₁ em
        ++ emitPeriods key dk cs₂ (em ++ emitPeriods key dk cs₁ em) := by
  induction cs₁ generalizing em with
  | nil => simp [emitPeriods]
  | cons c cs ih =>
    show periodEmit key dk em c
        ++ emitPeriods key dk (cs ++ cs₂) (em ++ periodEmit key dk em c)
      = (periodEmit key dk em c
          ++ emitPeriods key dk cs (em ++ periodEmit key dk em c))
        ++ emitPeriods key dk cs₂
          (em ++ (periodEmit key dk em c
            ++ emitPeriods key dk cs (em ++ periodEmit key dk em c)))
    rw [ih]
    simp [List.append_assoc]

/-! ## Claim C3: generated sequences are strictly increasing

Not unconditionally: a BY-part may place candidates outside their own
period, and then the outer iteration's periods overlap in time and the
emitted sequence goes backwards (see the counterexample below, driven by
the source's `expandByWeekNumbers`).  The invariant holds exactly when the
per-period candidate sets are cross-period ordered. -/

/-- C3 (amended): for every anchor and every family of per-period candidate
sets in which earlier periods precede later ones (which is how the spec's
frequency-driven outer iteration produces them whenever no BY-part spills
candidates outside its period), the sequence the generator emits — each
period sorted, deduplicated, filtered to instants at or after `dtstart` and
not already yielded, capped by `count` — is strictly increasing in time,
and in particular no instant is emitted twice. -/
theorem generateAll_strictMono {α : Type} [DecidableEq α] (key : α → Int)
    (dk : Int) (count : Nat) (css : List (List α))
    (h : css.Pairwise fun c d => ∀ x ∈ c, ∀ y ∈ d, key x < key y) :
    ((generateAll key dk count css).Pairwise fun a b => key a < key b)
      ∧ (generateAll key dk count css).Nodup := by
  have hp : (generateAll key dk count css).Pairwise fun a b => key a < key b := by
    have base := emitPeriods_pairwise key dk css [] h
    match count with
    | 0 => exact base
    | n + 1 => exact base.sublist (List.take_sublist _ _)
  refine ⟨hp, hp.imp ?_⟩
  intro a b hab
  intro hEq
  exact absurd (hEq ▸ hab) (lt_irrefl (key a))

/-- Witness for C3 at a concrete candidate family. -/
theorem generateAll_strictMono_witness :
    (([[(3 : Int), 1], [7, 5, 5]].Pairwise fun c d => ∀ x ∈ c, ∀ y ∈ d,
        id x < id y)
      ∧ ((generateAll (id : Int → Int) 2 0 [[3, 1], [7, 5, 5]]).Pairwise
          fun a b => id a < id b)
      ∧ (generateAll (id : Int → Int) 2 0 [[3, 1], [7, 5, 5]]).Nodup) := by
  have h : [[(3 : Int), 1], [7, 5, 5]].Pairwise fun c d => ∀ x ∈ c, ∀ y ∈ d,
      id x < id y := by decide
  have main := generateAll_strictMono (id : Int → Int) 2 0 [[3, 1], [7, 5, 5]] h
  exact ⟨h, main.1, main.2⟩

set_option maxRecDepth 8000 in
/-- C3 counterexample: the rule `FREQ=YEARLY;BYWEEKNO=-1,53` (legal by the
spec: nonzero week numbers of magnitude at most 53, yearly frequency) from
anchor `2018-01-01T09:00:00Z`.  `expandByWeekNumbers` places week 53 of the
2018 period on 2018-12-31 and week -1 of the 2019 period on 2018-12-18, so
the generator emits `2018-12-31, 2018-12-18, 2019-12-31` — not strictly
increasing. -/
theorem generatorNotAlwaysIncreasing :
    generateYearlyByWeekNo (goDate 2018 1 1 9 0 0 0 .utc) .monday
        [-1, 53] 0 2
      = [goDate 2018 12 31 9 0 0 0 .utc, goDate 2018 12 18 9 0 0 0 .utc,
         goDate 2019 12 31 9 0 0 0 .utc]
      ∧ ¬ (generateYearlyByWeekNo (goDate 2018 1 1 9 0 0 0 .utc) .monday
          [-1, 53] 0 2).Pairwise
          (fun a b => DateTime.toNs a < DateTime.toNs b) :=
  ⟨by decide, by decide⟩

/-! ## Claim C2: FREQ=MONTHLY;COUNT=3;BYDAY=1TU from 2018-08-25T09:08:07Z -/

/-- The scenario anchor `2018-08-25T09:08:07Z`. -/
def anchor2018 : DateTime := goDate 2018 8 25 9 8 7 0 .utc

/-- The three instants the spec's scenario table expects. -/
def firstTuesdays : List DateTime :=
  [goDate 2018 9 4 9 8 7 0 .utc,
   goDate 2018 10 2 9 8 7 0 .utc,
   goDate 2018 11 6 9 8 7 0 .utc]

/-- C2: iterating `FREQ=MONTHLY;COUNT=3;BYDAY=1TU` from the anchor
`2018-08-25T09:08:07Z` yields exactly `2018-09-04T09:08:07Z`,
`2018-10-02T09:08:07Z`, `2018-11-06T09:08:07Z` in that order and then
terminates: every sufficiently long run of the generator produces exactly
this list (four outer periods already suffice; further periods add
nothing once the count is reached). -/
theorem monthlyFirstTuesdayScenario (p : Nat) (hp : 4 ≤ p) :
    generateMonthlyByWeekday anchor2018 [⟨1, .tuesday⟩] [] .omitInvalid 3 p
      = firstTuesdays := by
  obtain ⟨q, rfl⟩ : ∃ q, p = 4 + q := ⟨p - 4, by omega⟩
  show generateAll DateTime.toNs anchor2018.toNs 3
      ((List.range (4 + q)).map
        (monthlyByWeekdayCandidates anchor2018 [⟨1, .tuesday⟩] [] .omitInvalid))
    = firstTuesdays
  rw [List.range_add, List.map_append]
  show (emitPeriods DateTime.toNs anchor2018.toNs _ []).take 3 = firstTuesdays
  rw [emitPeriods_append]
  rw [List.take_append_of_le_length (by decide)]
  decide

/-- Witness for C2 at the smallest sufficient fuel. -/
theorem monthlyFirstTuesdayScenario_witness :
    4 ≤ 4
      ∧ generateMonthlyByWeekday anchor2018 [⟨1, .tuesday⟩] [] .omitInvalid 3 4
        = firstTuesdays :=
  ⟨by decide, monthlyFirstTuesdayScenario 4 (by decide)⟩

/-! ## Claim C1: the invalid-month policy of `expandByMonths`

The code's recovery branches are anchored on `t.Month() + 1` — the month
after the instant's own month — not on the intended month `m`, and the
`PrevInvalid` branch passes day `-1` to `time.Date`, which normalises to two
days before the first of that month.  The spec's description ("last day of
the intended month", "first day of the month following the intended month")
therefore does not match the code. -/

/-- C1 counterexample: for `t = 2018-01-31T09:00:00Z` and intended month
February (day 31 does not exist in February), `PrevInvalid` yields
January 30 — not February 28, the last day of the intended month — and
`NextInvalid` yields February 1 — not March 1, the first day of the month
following the intended month. -/
theorem expandByMonthsClaimCounterexample :
    expandByMonths [goDate 2018 1 31 9 0 0 0 .utc] .prevInvalid [2]
        ≠ [goDate 2018 2 28 9 0 0 0 .utc]
      ∧ expandByMonths [goDate 2018 1 31 9 0 0 0 .utc] .prevInvalid [2]
        = [goDate 2018 1 30 9 0 0 0 .utc]
      ∧ expandByMonths [goDate 2018 1 31 9 0 0 0 .utc] .nextInvalid [2]
        ≠ [goDate 2018 3 1 9 0 0 0 .utc]
      ∧ expandByMonths [goDate 2018 1 31 9 0 0 0 .utc] .nextInvalid [2]
        = [goDate 2018 2 1 9 0 0 0 .utc] := by
  refine ⟨by decide, by decide, by decide, by decide⟩

/-- C1 (amended): when placing `t`'s day-of-month into month `m` of `t`'s
year does not yield a date in `m`, `expandByMonths` applies the
invalid-month policy as follows: under `OmitInvalid` the candidate is
dropped; under `PrevInvalid` it is replaced by
`time.Date(t.year, t.month + 1, -1, clock)` — two days before the first day
of the month after `t`'s own month, i.e. the second-to-last day of `t`'s own
month — keeping `t`'s clock time; under `NextInvalid` it is replaced by the
first day of the month after `t`'s own month, keeping `t`'s clock time. -/
theorem expandByMonthsInvalidPolicy (t : DateTime) (ib : InvalidBehavior)
    (m : Int)
    (h : (goDate t.year m t.day t.hour t.minute t.second t.nsec t.loc).month
      ≠ m) :
    expandByMonths [t] ib [m] =
      match ib with
      | .omitInvalid => []
      | .prevInvalid =>
        [goDate t.year (t.month + 1) (-1) t.hour t.minute t.second t.nsec t.loc]
      | .nextInvalid =>
        [goDate t.year (t.month + 1) 1 t.hour t.minute t.second t.nsec t.loc] := by
  cases ib <;> simp [expandByMonths, h]

/-- Witness for the amended C1 at the counterexample's input. -/
theorem expandByMonthsInvalidPolicy_witness :
    (goDate (goDate 2018 1 31 9 0 0 0 .utc).year 2
        (goDate 2018 1 31 9 0 0 0 .utc).day
        (goDate 2018 1 31 9 0 0 0 .utc).hour
        (goDate 2018 1 31 9 0 0 0 .utc).minute
        (goDate 2018 1 31 9 0 0 0 .utc).second
        (goDate 2018 1 31 9 0 0 0 .utc).nsec
        (goDate 2018 1 31 9 0 0 0 .utc).loc).month ≠ 2
      ∧ expandByMonths [goDate 2018 1 31 9 0 0 0 .utc] .prevInvalid [2]
        = [goDate (goDate 2018 1 31 9 0 0 0 .utc).year
            ((goDate 2018 1 31 9 0 0 0 .utc).month + 1) (-1)
            (goDate 2018 1 31 9 0 0 0 .utc).hour
            (goDate 2018 1 31 9 0 0 0 .utc).minute
            (goDate 2018 1 31 9 0 0 0 .utc).second
            (goDate 2018 1 31 9 0 0 0 .utc).nsec
            (goDate 2018 1 31 9 0 0 0 .utc).loc] :=
  ⟨by decide,
    expandByMonthsInvalidPolicy (goDate 2018 1 31 9 0 0 0 .utc)
      .prevInvalid 2 (by decide)⟩

/-! ## Claim C4: `expandByWeekdays` ignores the ordinal -/

/-- C4: for a non-empty qualified-weekday list, `expandByWeekdays` maps each
input instant `t` and each listed entry, in order, to
`forwardToWeekday(backToWeekday(t, weekStart), wd)` — back to the week start
(largest non-positive shift), then forward to the listed weekday (smallest
non-negative shift) — and the ordinal is ignored: two lists with the same
weekdays in the same order produce identical output whatever their
ordinals. -/
theorem expandByWeekdaysIgnoresOrdinal :
    (∀ (tt : List DateTime) (ws : Weekday) (wds : List QualifiedWeekday),
      wds ≠ [] →
        expandByWeekdays tt ws wds
          = tt.flatMap fun t =>
              wds.map fun q => forwardToWeekday (backToWeekday t ws) q.WD)
      ∧ ∀ (tt : List DateTime) (ws : Weekday)
          (wds₁ wds₂ : List QualifiedWeekday),
          wds₁.map QualifiedWeekday.WD = wds₂.map QualifiedWeekday.WD →
            expandByWeekdays tt ws wds₁ = expandByWeekdays tt ws wds₂ := by
  have hmap : ∀ (f : Weekday → DateTime) (wds : List QualifiedWeekday),
      wds.map (fun q => f q.WD) = (wds.map QualifiedWeekday.WD).map f := by
    intro f wds
    rw [List.map_map]
    rfl
  constructor
  · intro tt ws wds hne
    rw [expandByWeekdays, if_neg hne]
  · intro tt ws wds₁ wds₂ h
    by_cases h₁ : wds₁ = []
    · subst h₁
      have h₂ : wds₂ = [] := by simpa using h.symm
      subst h₂
      rfl
    · have h₂ : wds₂ ≠ [] := by
        intro e
        subst e
        simp only [List.map_nil, List.map_eq_nil_iff] at h
        exact h₁ h
      rw [expandByWeekdays, expandByWeekdays, if_neg h₁, if_neg h₂]
      refine congrArg _ ?_
      funext t
      rw [hmap, hmap, h]

/-- Witness for C4: the first Tuesday qualifier and a plain Tuesday
qualifier agree on a concrete instant. -/
theorem expandByWeekdaysIgnoresOrdinal_witness :
    (([⟨(1 : Int), Weekday.tuesday⟩] : List QualifiedWeekday) ≠ []
      ∧ expandByWeekdays [goDate 2018 8 25 9 8 7 0 .utc] .monday
          [⟨1, .tuesday⟩]
        = [goDate 2018 8 25 9 8 7 0 .utc].flatMap fun t =>
            ([⟨(1 : Int), Weekday.tuesday⟩] : List QualifiedWeekday).map
              fun q => forwardToWeekday (backToWeekday t .monday) q.WD)
      ∧ ([⟨(1 : Int), Weekday.tuesday⟩] : List QualifiedWeekday).map
            QualifiedWeekday.WD
          = ([⟨(-3 : Int), Weekday.tuesday⟩] : List QualifiedWeekday).map
            QualifiedWeekday.WD
      ∧ expandByWeekdays [goDate 2018 8 25 9 8 7 0 .utc] .monday
          [⟨1, .tuesday⟩]
        = expandByWeekdays [goDate 2018 8 25 9 8 7 0 .utc] .monday
          [⟨-3, .tuesday⟩] :=
  ⟨⟨by decide,
    expandByWeekdaysIgnoresOrdinal.1 [goDate 2018 8 25 9 8 7 0 .utc] .monday
      [⟨1, .tuesday⟩] (by decide)⟩,
    by decide,
    expandByWeekdaysIgnoresOrdinal.2 [goDate 2018 8 25 9 8 7 0 .utc] .monday
      [⟨1, .tuesday⟩] [⟨-3, .tuesday⟩] (by decide)⟩

/-! ## Claim C8: `expandByWeekNumbers` does not depend on its week start -/

/-- C8: the output of `expandByWeekNumbers` is the same for any two
week-start arguments; instead of using the week start it anchors each input
instant's year at January 1 advanced forward to the instant's own weekday,
and maps week number `w` to that anchor plus `(w - 1) * 7` days. -/
theorem expandByWeekNumbersIgnoresWeekStart :
    (∀ (tt : List DateTime) (ws₁ ws₂ : Weekday) (wns : List Int),
      expandByWeekNumbers tt ws₁ wns = expandByWeekNumbers tt ws₂ wns)
      ∧ ∀ (tt : List DateTime) (ws : Weekday) (wns : List Int),
          wns ≠ [] →
            expandByWeekNumbers tt ws wns
              = tt.flatMap fun t =>
                  wns.map fun w =>
                    (forwardToWeekday
                      (goDate t.year 1 1 t.hour t.minute t.second t.nsec t.loc)
                      t.weekday).addDate 0 0 ((w - 1) * 7) := by
  constructor
  · intro tt ws₁ ws₂ wns
    rfl
  · intro tt ws wns hne
    rw [expandByWeekNumbers, if_neg hne]

/-- Witness for C8 on a concrete instant and week number. -/
theorem expandByWeekNumbersIgnoresWeekStart_witness :
    (([3] : List Int) ≠ []
      ∧ expandByWeekNumbers [goDate 2018 8 25 9 8 7 0 .utc] .friday [3]
        = [goDate 2018 8 25 9 8 7 0 .utc].flatMap fun t =>
            ([3] : List Int).map fun w =>
              (forwardToWeekday
                (goDate t.year 1 1 t.hour t.minute t.second t.nsec t.loc)
                t.weekday).addDate 0 0 ((w - 1) * 7))
      ∧ expandByWeekNumbers [goDate 2018 8 25 9 8 7 0 .utc] .friday [3]
        = expandByWeekNumbers [goDate 2018 8 25 9 8 7 0 .utc] .monday [3] :=
  ⟨⟨by decide,
    expandByWeekNumbersIgnoresWeekStart.2 [goDate 2018 8 25 9 8 7 0 .utc]
      .friday [3] (by decide)⟩,
    expandByWeekNumbersIgnoresWeekStart.1 [goDate 2018 8 25 9 8 7 0 .utc]
      .friday .monday [3]⟩

/-! ## Claim C9: an empty BY-part list is the identity -/

/-- C9: every expansion function returns its input list unchanged when the
corresponding BY-part list is empty. -/
theorem emptyByPartIsIdentity :
    (∀ tt, expandBySeconds tt [] = tt)
      ∧ (∀ tt, expandByMinutes tt [] = tt)
      ∧ (∀ tt, expandByHours tt [] = tt)
      ∧ (∀ tt ws, expandByWeekdays tt ws [] = tt)
      ∧ (∀ tt, expandByMonthDays tt [] = tt)
      ∧ (∀ tt, expandByYearDays tt [] = tt)
      ∧ (∀ tt ws, expandByWeekNumbers tt ws [] = tt)
      ∧ (∀ tt ib, expandByMonths tt ib [] = tt)
      ∧ (∀ tt ib sp, expandMonthByWeekdays tt ib sp [] = tt)
      ∧ (∀ tt ib, expandYearByWeekdays tt ib [] = tt) :=
  ⟨fun _ => rfl, fun _ => rfl, fun _ => rfl, fun _ _ => rfl, fun _ => rfl,
    fun _ => rfl, fun _ _ => rfl, fun _ _ => rfl, fun _ _ _ => rfl,
    fun _ _ => rfl⟩

/-! ## The parser (`parse.go`)

Go strings are embedded as lists of characters (`GoStr`); Go's byte-index
slicing coincides with character counting on the ASCII inputs the grammar
recognises.  Errors are embedded as an inductive type mirroring the distinct
`fmt.Errorf`/`errors.New` sites of the source. -/

abbrev GoStr := List Char

/-- ASCII lowercasing of one character (Go's `strings.ToLower` restricted to
the ASCII values the grammar compares). -/
def lowerChar (c : Char) : Char :=
  if 'A' ≤ c ∧ c ≤ 'Z' then Char.ofNat (c.toNat + 32) else c

def toLowerGo (s : GoStr) : GoStr := s.map lowerChar

/-- Go's `strings.Split` on a one-character separator (always returns at
least one group; an empty input gives one empty group). -/
def splitOnChar (sep : Char) : GoStr → List GoStr
  | [] => [[]]
  | c :: rest =>
    match splitOnChar sep rest with
    | [] => [[c]]
    | g :: gs => if c = sep then [] :: g :: gs else (c :: g) :: gs

/-- Digit run to a number (callers check `Char.isDigit` beforehand). -/
def digitsToNat (cs : GoStr) : Nat :=
  cs.foldl (fun a d => a * 10 + (d.toNat - 48)) 0

/-- The digit part of `strconv.Atoi`: at least one decimal digit, the value
within the signed 64-bit range. -/
def goAtoiDigits (digits : GoStr) (neg : Bool) : Option Int :=
  if digits = [] then none
  else if digits.all Char.isDigit then
    let v : Int :=
      if neg then -(Int.ofNat (digitsToNat digits))
      else Int.ofNat (digitsToNat digits)
    if -(2 ^ 63) ≤ v ∧ v ≤ 2 ^ 63 - 1 then some v else none
  else none

/-- Go's `strconv.Atoi`: an optional sign followed by at least one decimal
digit, rejecting values outside the signed 64-bit range. -/
def goAtoi (s : GoStr) : Option Int :=
  match s with
  | [] => none
  | c :: rest =>
    if c = '-' ∨ c = '+' then goAtoiDigits rest (c = '-')
    else goAtoiDigits s false

/-- The parse-error taxonomy, one constructor per distinct error site. -/
inductive ParseErr where
  | misformattedLine (line : GoStr)
  | invalidSegment (seg : GoStr)
  | unsupportedPart (directive : GoStr)
  | badInt (s : GoStr)
  | badFrequency (s : GoStr)
  | badWeekday (s : GoStr)
  | emptyWeekdaySegment
  | badTime (s : GoStr)
  | validationError
deriving DecidableEq

deriving instance DecidableEq for Except

/-- The shared shape of the parser's comma-separated-list loops: apply `f`
to each part, stopping at the first error. -/
def mapParts {α : Type} (f : GoStr → Except ParseErr α) :
    List GoStr → Except ParseErr (List α)
  | [] => .ok []
  | p :: rest =>
    match f p with
    | .error e => .error e
    | .ok x =>
      match mapParts f rest with
      | .error e => .error e
      | .ok xs => .ok (x :: xs)

def parseWeekday (str : GoStr) : Except ParseErr Weekday :=
  let l := toLowerGo str
  if l = "mo".toList then .ok .monday
  else if l = "tu".toList then .ok .tuesday
  else if l = "we".toList then .ok .wednesday
  else if l = "th".toList then .ok .thursday
  else if l = "fr".toList then .ok .friday
  else if l = "sa".toList then .ok .saturday
  else if l = "su".toList then .ok .sunday
  else .error (.badWeekday str)

/-- The length of the optional signed ordinal prefix of a BYDAY segment: an
optional leading sign, then the run of decimal digits after it. -/
def scanOrdinalLen (p : GoStr) : Nat :=
  match p with
  | [] => 0
  | c :: rest =>
    if c = '-' ∨ c = '+' then 1 + (rest.takeWhile Char.isDigit).length
    else (p.takeWhile Char.isDigit).length

/-- One comma-separated BYDAY segment: the loop body of
`parseQualifiedWeekdays`. -/
def parseQualifiedWeekdayPart (p : GoStr) : Except ParseErr QualifiedWeekday :=
  if p = [] then .error .emptyWeekdaySegment
  else
    match (if 0 < scanOrdinalLen p then
        match goAtoi (p.take (scanOrdinalLen p)) with
        | some n => Except.ok n
        | none => Except.error (ParseErr.badInt (p.take (scanOrdinalLen p)))
      else Except.ok 0) with
    | .error e => .error e
    | .ok digit =>
      match parseWeekday (p.drop (scanOrdinalLen p)) with
      | .error e => .error e
      | .ok wd => .ok ⟨digit, wd⟩

def parseQualifiedWeekdays (str : GoStr) :
    Except ParseErr (List QualifiedWeekday) :=
  mapParts parseQualifiedWeekdayPart (splitOnChar ',' str)

theorem splitOnChar_ne_nil (sep : Char) (s : GoStr) : splitOnChar sep s ≠ [] := by
  cases s with
  | nil => simp [splitOnChar]
  | cons c rest =>
    rw [splitOnChar]
    split
    · simp
    · split <;> simp

theorem takeWhile_append_all (p : Char → Bool) (xs ys : GoStr)
    (h : xs.all p = true) :
    (xs ++ ys).takeWhile p = xs ++ ys.takeWhile p := by
  induction xs with
  | nil => simp
  | cons a xs ih =>
    rw [List.all_cons, Bool.and_eq_true] at h
    simp [List.takeWhile_cons, h.1, ih h.2]

/-! ## `timeValueOf` ignores the prefix before the separator -/

/-- A non-empty signed decimal ordinal prefix: an optional sign followed by
at least one digit. -/
def isOrdinalPrefix (pre : GoStr) : Bool :=
  match pre with
  | [] => false
  | c :: rest =>
    if c = '-' ∨ c = '+' then !rest.isEmpty && rest.all Char.isDigit
    else (c :: rest).all Char.isDigit

theorem scanOrdinalLen_exact (pre code : GoStr) (hcode : code ≠ [])
    (hhead : ∀ a ∈ code.take 1, a.isDigit = false ∧ ¬(a = '-' ∨ a = '+'))
    (hpre : pre = [] ∨ isOrdinalPrefix pre = true) :
    scanOrdinalLen (pre ++ code) = pre.length := by
  obtain ⟨a, code2, rfl⟩ : ∃ a code2, code = a :: code2 := by
    cases code with
    | nil => exact absurd rfl hcode
    | cons a c => exact ⟨a, c, rfl⟩
  obtain ⟨had, has⟩ := hhead a (by simp)
  have htw : (a :: code2).takeWhile Char.isDigit = [] := by
    simp [List.takeWhile_cons, had]
  rcases hpre with rfl | hop
  · rw [List.nil_append, scanOrdinalLen, if_neg has, htw]
  · cases pre with
    | nil => simp [isOrdinalPrefix] at hop
    | cons c rest =>
      rw [isOrdinalPrefix] at hop
      by_cases hc : c = '-' ∨ c = '+'
      · rw [if_pos hc] at hop
        simp only [Bool.and_eq_true] at hop
        have hall : rest.all Char.isDigit = true := hop.2
        show scanOrdinalLen (c :: (rest ++ a :: code2)) = (c :: rest).length
        rw [scanOrdinalLen, if_pos hc, takeWhile_append_all _ rest _ hall, htw]
        simp [Nat.add_comm]
      · rw [if_neg hc] at hop
        show scanOrdinalLen (c :: (rest ++ a :: code2)) = (c :: rest).length
        rw [scanOrdinalLen, if_neg hc,
          show c :: (rest ++ a :: code2) = (c :: rest) ++ (a :: code2) from rfl,
          takeWhile_append_all _ (c :: rest) _ hop, htw]
        simp

theorem parseWeekday_ok_ne_nil (code : GoStr) (wd : Weekday)
    (h : parseWeekday code = .ok wd) : code ≠ [] := by
  intro e
  subst e
  cases wd <;> exact absurd h (by decide)

theorem mapParts_ok_of_forall₂ {α : Type} (f : GoStr → Except ParseErr α)
    (ps : List GoStr) (qs : List α)
    (h : List.Forall₂ (fun p q => f p = Except.ok q) ps qs) :
    mapParts f ps = .ok qs := by
  induction h with
  | nil => rfl
  | cons hpq _ ih => rw [mapParts, hpq, ih]

theorem mapParts_error_of_mem {α : Type} (f : GoStr → Except ParseErr α)
    (ps : List GoStr) (p : GoStr) (hp : p ∈ ps)
    (hf : ∀ q, f p ≠ .ok q) : ∃ e, mapParts f ps = .error e := by
  induction ps with
  | nil => exact absurd hp (List.not_mem_nil p)
  | cons a rest ih =>
    cases hfa : f a with
    | error e => exact ⟨e, by rw [mapParts, hfa]⟩
    | ok q =>
      rcases List.mem_cons.mp hp with he | he
      · subst he
        exact absurd hfa (hf q)
      · obtain ⟨e, hme⟩ := ih he
        exact ⟨e, by rw [mapParts, hfa, hme]⟩

theorem parseQualifiedWeekdayPart_not_ok (p : GoStr)
    (hbad : ∀ wd, parseWeekday (p.drop (scanOrdinalLen p)) ≠ .ok wd) :
    ∀ q, parseQualifiedWeekdayPart p ≠ .ok q := by
  intro q h
  rw [parseQualifiedWeekdayPart] at h
  by_cases hp0 : p = []
  · rw [if_pos hp0] at h
    exact absurd h (by simp)
  · rw [if_neg hp0] at h
    split at h
    · exact absurd h (by simp)
    · split at h
      · exact absurd h (by simp)
      · rename_i wd hwd
        exact hbad wd hwd

/-- C7: each comma-separated BYDAY segment consisting of an optional signed
decimal ordinal prefix followed by a recognised weekday code parses to the
qualified weekday whose ordinal is the parsed prefix (0 when the prefix is
absent) and whose weekday is the named day, segment by segment in list
order; an empty segment yields an error, and so does a segment whose
remainder after the ordinal prefix is not a recognised weekday code. -/
theorem parseByDayGrammar :
    (∀ (pre code : GoStr) (n : Int) (wd : Weekday),
      ((pre = [] ∧ n = 0)
        ∨ (isOrdinalPrefix pre = true ∧ goAtoi pre = some n)) →
      (∀ a ∈ code.take 1, a.isDigit = false ∧ ¬(a = '-' ∨ a = '+')) →
      parseWeekday code = .ok wd →
        parseQualifiedWeekdayPart (pre ++ code) = .ok ⟨n, wd⟩)
      ∧ (∀ (str : GoStr) (qs : List QualifiedWeekday),
          List.Forall₂ (fun p q => parseQualifiedWeekdayPart p = Except.ok q)
            (splitOnChar ',' str) qs →
            parseQualifiedWeekdays str = .ok qs)
      ∧ (∀ str : GoStr, [] ∈ splitOnChar ',' str →
          ∃ e, parseQualifiedWeekdays str = .error e)
      ∧ ∀ (str p : GoStr), p ∈ splitOnChar ',' str →
          (∀ wd, parseWeekday (p.drop (scanOrdinalLen p)) ≠ .ok wd) →
            ∃ e, parseQualifiedWeekdays str = .error e := by
  refine ⟨?_, ?_, ?_, ?_⟩
  · intro pre code n wd hpre hhead hwd
    have hcne : code ≠ [] := parseWeekday_ok_ne_nil code wd hwd
    have hpre2 : pre = [] ∨ isOrdinalPrefix pre = true := by
      rcases hpre with ⟨e, _⟩ | ⟨ho, _⟩
      · exact Or.inl e
      · exact Or.inr ho
    have hscan : scanOrdinalLen (pre ++ code) = pre.length :=
      scanOrdinalLen_exact pre code hcne hhead hpre2
    have hpne : pre ++ code ≠ [] :=
      fun e => hcne (List.append_eq_nil.mp e).2
    rw [parseQualifiedWeekdayPart, if_neg hpne, hscan]
    rcases hpre with ⟨he, hn⟩ | ⟨ho, ha⟩
    · subst he
      subst hn
      show (match parseWeekday code with
        | .error e => Except.error e
        | .ok wd2 => Except.ok (⟨0, wd2⟩ : QualifiedWeekday))
        = Except.ok ⟨0, wd⟩
      rw [hwd]
    · have hlen : 0 < pre.length := by
        cases pre with
        | nil => simp [isOrdinalPrefix] at ho
        | cons c rest => simp
      rw [if_pos hlen, List.take_left, List.drop_left, ha, hwd]
  · intro str qs h
    exact mapParts_ok_of_forall₂ parseQualifiedWeekdayPart
      (splitOnChar ',' str) qs h
  · intro str hmem
    exact mapParts_error_of_mem parseQualifiedWeekdayPart _ [] hmem
      (fun q h => by simp [parseQualifiedWeekdayPart] at h)
  · intro str p hmem hbad
    exact mapParts_error_of_mem parseQualifiedWeekdayPart _ p hmem
      (parseQualifiedWeekdayPart_not_ok p hbad)

/-- Witness for C7: the spec's own examples `+35WE` and `-17MO`, an empty
segment, and an unrecognised remainder. -/
theorem parseByDayGrammar_witness :
    parseQualifiedWeekdays "+35WE,-17MO".toList
        = .ok [⟨35, .wednesday⟩, ⟨-17, .monday⟩]
      ∧ (∃ e, parseQualifiedWeekdays ",".toList = .error e)
      ∧ (∃ e, parseQualifiedWeekdays "5QQ".toList = .error e) := by
  refine ⟨?_,
    parseByDayGrammar.2.2.1 ",".toList (by decide),
    parseByDayGrammar.2.2.2 "5QQ".toList "5QQ".toList (by decide)
      (fun wd => by cases wd <;> decide)⟩
  have hA1 : parseQualifiedWeekdayPart "+35WE".toList = .ok ⟨35, .wednesday⟩ :=
    parseByDayGrammar.1 "+35".toList "WE".toList 35 .wednesday
      (Or.inr ⟨by decide, by decide⟩) (by decide) (by decide)
  have hA2 : parseQualifiedWeekdayPart "-17MO".toList = .ok ⟨-17, .monday⟩ :=
    parseByDayGrammar.1 "-17".toList "MO".toList (-17) .monday
      (Or.inr ⟨by decide, by decide⟩) (by decide) (by decide)
  refine parseByDayGrammar.2.1 _ _ ?_
  rw [show splitOnChar ',' "+35WE,-17MO".toList
    = ["+35WE".toList, "-17MO".toList] from by decide]
  exact List.Forall₂.cons hA1 (List.Forall₂.cons hA2 List.Forall₂.nil)

/-! ## Claim C10: a negative COUNT wraps modulo `2 ^ 64` -/

end RRuleLib
